import Mathlib

/-!
Verification of the scene-splitting pipeline in `Scene_distribution.py`.

The file embeds the two core routines as Lean definitions:

* `merge_short_scenes` — the short-scene merge pass, a left-to-right fold
  that extends the last merged scene or appends a new one (source lines
  84–106).
* `buildScenes` — the boundary builder: dedup/sort the collected cut frame
  indices, add the `0` and `total_frames` sentinels, and convert adjacent
  pairs to time intervals (source lines 77–81).
* `detectRun` / `detect_scenes_dynamic` — the driving loop of
  `detect_scenes_dynamic` (source lines 30–81), with the external
  collaborators (cv2 video capture, grayscale conversion, the adaptive cut
  detector) represented as abstract interfaces.  The embedding additionally
  records, as ghost data, how many times the capture handle is released and
  the list of frame indices fed to the detector, so that the resource and
  indexing disciplines can be stated.

Scene times and motion values are modelled as rationals (the Python floats
carry exact small decimals in every property of interest).
-/

namespace SceneDist

/-- Skip decision of the motion sampler (source line 59):
`skip = min_skip if motion_val > motion_threshold else max_skip`. -/
def skipDecision (motion_val motion_threshold : ℚ) (min_skip max_skip : ℕ) : ℕ :=
  if motion_val > motion_threshold then min_skip else max_skip

/-- `sorted(set(l))` of source line 77: the ascending list of the distinct
elements of `l`. -/
def dedupSort (l : List ℕ) : List ℕ :=
  l.toFinset.sort (· ≤ ·)

/-- Boundary builder (source lines 77–80): prepend `0`, append
`total_frames`, emit each adjacent pair divided by `fps`. -/
def buildScenes (cut_frame_nums : List ℕ) (total_frames : ℕ) (fps : ℚ) :
    List (ℚ × ℚ) :=
  let boundaries : List ℕ := 0 :: dedupSort cut_frame_nums ++ [total_frames]
  (boundaries.zip boundaries.tail).map
    (fun p => ((p.1 : ℚ) / fps, (p.2 : ℚ) / fps))

/-- One iteration of the merge loop body (source lines 98–105): read the
last merged scene, extend it when the incoming scene is short, otherwise
append the incoming scene. -/
def mergeStep (min_duration : ℚ) (merged : List (ℚ × ℚ)) (sc : ℚ × ℚ) :
    List (ℚ × ℚ) :=
  match merged.getLast? with
  | some prev =>
      if sc.2 - sc.1 < min_duration then merged.dropLast ++ [(prev.1, sc.2)]
      else merged ++ [sc]
  | none => merged ++ [sc]

/-- `merge_short_scenes` (source lines 84–106): seed with the first scene,
then fold the loop body over the remaining scenes. -/
def merge_short_scenes (scenes : List (ℚ × ℚ)) (min_duration : ℚ) :
    List (ℚ × ℚ) :=
  match scenes with
  | [] => []
  | s :: rest => rest.foldl (mergeStep min_duration) [s]

/-- Recursive form of the merge loop, threading the current last merged
scene; used to reason about `merge_short_scenes` by induction. -/
def mergeGo (d : ℚ) (cur : ℚ × ℚ) : List (ℚ × ℚ) → List (ℚ × ℚ)
  | [] => [cur]
  | sc :: tl =>
      if sc.2 - sc.1 < d then mergeGo d (cur.1, sc.2) tl
      else cur :: mergeGo d sc tl

/-- Total duration of a scene list. -/
def sumDur (scenes : List (ℚ × ℚ)) : ℚ :=
  (scenes.map (fun sc => sc.2 - sc.1)).sum

/-- Interface of the external adaptive cut detector (`AdaptiveDetector`):
a state machine with `process_frame` (per analyzed frame, returning newly
confirmed cut indices) and `post_process` (end-of-stream flush). -/
structure Detector (Frame σ : Type) where
  init : σ
  process_frame : σ → ℕ → Frame → σ × List ℕ
  post_process : σ → ℕ → List ℕ

/-- Interface of the grayscale operations used by the motion sampler
(`cv2.cvtColor` to gray and `cv2.absdiff(..).mean()`). -/
structure GrayOps (Frame Gray : Type) where
  cvtColor : Frame → Gray
  absdiffMean : Gray → Gray → ℚ

/-- Abstraction of an opened-or-not `cv2.VideoCapture`: its metadata and the
stream of frames it will yield. -/
structure VideoSource (Frame : Type) where
  path : String
  isOpened : Bool
  fps : ℚ
  total_frames : ℕ
  frames : List Frame

/-- The skip loop of source lines 65–68: up to `skip` grab-without-decode
advances, stopping early when the source is exhausted, incrementing the
frame index once per successful grab. Returns the remaining frames and the
updated frame index. -/
def skipAdvance {Frame : Type} : List Frame → ℕ → ℕ → List Frame × ℕ
  | remaining, frame_num, 0 => (remaining, frame_num)
  | [], frame_num, _ + 1 => ([], frame_num)
  | _ :: rest, frame_num, k + 1 => skipAdvance rest (frame_num + 1) k

/-- Everything the detection loop produces: the detector state, the
collected cut indices, the final frame index, and (ghost data) the indices
fed to the detector. -/
structure LoopResult (σ : Type) where
  state : σ
  cut_frame_nums : List ℕ
  frame_num : ℕ
  fed_indices : List ℕ

/-- The frame loop of source lines 52–71: read a frame; compute the motion
value against the previous gray image and the skip decision; feed the frame
to the detector at the current index; perform the skip advances; increment
the index once more for the analyzed frame and continue. -/
def detectLoop {Frame Gray σ : Type} (ops : GrayOps Frame Gray)
    (det : Detector Frame σ) (motion_threshold : ℚ) (min_skip max_skip : ℕ)
    (st : σ) (prev_gray : Gray) (frame_num : ℕ) (cut_frame_nums : List ℕ)
    (remaining : List Frame) : LoopResult σ :=
  match remaining with
  | [] => ⟨st, cut_frame_nums, frame_num, []⟩
  | frame :: rest =>
      let gray := ops.cvtColor frame
      let motion_val := ops.absdiffMean prev_gray gray
      let skip := skipDecision motion_val motion_threshold min_skip max_skip
      let pr := det.process_frame st frame_num frame
      let adv := skipAdvance rest frame_num skip
      let r := detectLoop ops det motion_threshold min_skip max_skip pr.1 gray
        (adv.2 + 1) (cut_frame_nums ++ pr.2) adv.1
      ⟨r.state, r.cut_frame_nums, r.frame_num, frame_num :: r.fed_indices⟩
termination_by remaining.length
decreasing_by
  have hle : ∀ (k : ℕ) (l : List Frame) (fn : ℕ),
      (skipAdvance l fn k).1.length ≤ l.length := by
    intro k
    induction k with
    | zero => intro l fn; simp [skipAdvance]
    | succ k' ih =>
        intro l fn
        cases l with
        | nil => simp [skipAdvance]
        | cons x xs =>
            calc (skipAdvance (x :: xs) fn (k' + 1)).1.length
                = (skipAdvance xs (fn + 1) k').1.length := rfl
              _ ≤ xs.length := ih xs (fn + 1)
              _ ≤ (x :: xs).length := by simp
  simp only [List.length_cons]
  exact Nat.lt_succ_of_le (hle _ _ _)

/-- Result of one run of `detect_scenes_dynamic`: the returned value or the
raised error, plus (ghost data) the number of `cap.release()` calls made and
the frame indices fed to the detector. -/
structure RunResult where
  result : Except String (List (ℚ × ℚ))
  releases : ℕ
  fed_indices : List ℕ

/-- `detect_scenes_dynamic` (source lines 30–81) with its ghost data: fail
when the source is not opened; return `[]` (after releasing) when the first
read fails; otherwise seed the previous gray image, run the frame loop from
index 1, flush the detector at the final index, release, and build the
scenes from the collected cut indices. -/
def detectRun {Frame Gray σ : Type} (ops : GrayOps Frame Gray)
    (det : Detector Frame σ) (src : VideoSource Frame)
    (motion_threshold : ℚ) (min_skip max_skip : ℕ) : RunResult :=
  if src.isOpened = false then
    ⟨.error ("Cannot open video: " ++ src.path), 0, []⟩
  else
    match src.frames with
    | [] => ⟨.ok [], 1, []⟩
    | f0 :: rest =>
        let prev_gray := ops.cvtColor f0
        let r := detectLoop ops det motion_threshold min_skip max_skip
          det.init prev_gray 1 [] rest
        let flushed := det.post_process r.state r.frame_num
        ⟨.ok (buildScenes (r.cut_frame_nums ++ flushed) src.total_frames src.fps),
          1, r.fed_indices⟩

/-- The value of `detect_scenes_dynamic` proper: the scene list, or the
`IOError` raised on an unopenable source. -/
def detect_scenes_dynamic {Frame Gray σ : Type} (ops : GrayOps Frame Gray)
    (det : Detector Frame σ) (src : VideoSource Frame)
    (motion_threshold : ℚ) (min_skip max_skip : ℕ) :
    Except String (List (ℚ × ℚ)) :=
  (detectRun ops det src motion_threshold min_skip max_skip).result

/-- Trivial grayscale operations on a unit frame type, for concrete runs. -/
def unitOps : GrayOps Unit Unit := ⟨fun _ => (), fun _ _ => 0⟩

/-- A detector that never reports a cut, for concrete runs. -/
def nilDetector : Detector Unit Unit :=
  ⟨(), fun s _ _ => (s, []), fun _ _ => []⟩

/-- A source that opened but holds no frames. -/
def emptySrc : VideoSource Unit := ⟨"v.mp4", true, 30, 0, []⟩

/-- A source that could not be opened. -/
def closedSrc : VideoSource Unit := ⟨"v.mp4", false, 30, 0, []⟩

/-- An opened three-frame source. -/
def threeFrameSrc : VideoSource Unit := ⟨"v.mp4", true, 30, 3, [(), (), ()]⟩

lemma foldl_mergeStep_eq_go (d : ℚ) :
    ∀ (rest front : List (ℚ × ℚ)) (cur : ℚ × ℚ),
      rest.foldl (mergeStep d) (front ++ [cur]) = front ++ mergeGo d cur rest := by
  intro rest
  induction rest with
  | nil => intro front cur; simp [mergeGo]
  | cons sc tl ih =>
      intro front cur
      by_cases h : sc.2 - sc.1 < d
      · have hstep : mergeStep d (front ++ [cur]) sc = front ++ [(cur.1, sc.2)] := by
          simp [mergeStep, h]
        simp only [List.foldl_cons, hstep, ih, mergeGo, if_pos h]
      · have hstep : mergeStep d (front ++ [cur]) sc = (front ++ [cur]) ++ [sc] := by
          simp [mergeStep, h]
        have := ih (front ++ [cur]) sc
        simp only [List.foldl_cons, hstep, this, mergeGo, if_neg h]
        simp

lemma merge_cons (s : ℚ × ℚ) (rest : List (ℚ × ℚ)) (d : ℚ) :
    merge_short_scenes (s :: rest) d = mergeGo d s rest := by
  have := foldl_mergeStep_eq_go d rest [] s
  simpa [merge_short_scenes] using this

lemma mergeGo_ne_nil (d : ℚ) (cur : ℚ × ℚ) (rest : List (ℚ × ℚ)) :
    mergeGo d cur rest ≠ [] := by
  induction rest generalizing cur with
  | nil => simp [mergeGo]
  | cons sc tl ih =>
      by_cases h : sc.2 - sc.1 < d
      · simpa [mergeGo, h] using ih (cur.1, sc.2)
      · simp [mergeGo, h]

lemma mergeGo_head_fst (d : ℚ) (cur : ℚ × ℚ) (rest : List (ℚ × ℚ)) :
    (mergeGo d cur rest).head?.map Prod.fst = some cur.1 := by
  induction rest generalizing cur with
  | nil => simp [mergeGo]
  | cons sc tl ih =>
      by_cases h : sc.2 - sc.1 < d
      · simpa [mergeGo, h] using ih (cur.1, sc.2)
      · simp [mergeGo, h]

lemma mergeGo_getLast_snd (d : ℚ) (cur : ℚ × ℚ) (rest : List (ℚ × ℚ)) :
    (mergeGo d cur rest).getLast?.map Prod.snd =
      ((cur :: rest).getLast?).map Prod.snd := by
  induction rest generalizing cur with
  | nil => simp [mergeGo]
  | cons sc tl ih =>
      by_cases h : sc.2 - sc.1 < d
      · have h1 := ih (cur.1, sc.2)
        rw [mergeGo, if_pos h, h1]
        cases tl <;> simp [List.getLast?_cons_cons]
      · have h1 := ih sc
        rw [mergeGo, if_neg h]
        have hne : mergeGo d sc tl ≠ [] := mergeGo_ne_nil d sc tl
        obtain ⟨a, l, hl⟩ : ∃ a l, mergeGo d sc tl = a :: l := by
          cases hm : mergeGo d sc tl with
          | nil => exact absurd hm hne
          | cons a l => exact ⟨a, l, rfl⟩
        rw [hl] at h1 ⊢
        rw [List.getLast?_cons_cons, h1, List.getLast?_cons_cons]

lemma mergeGo_sumDur (d : ℚ) (rest : List (ℚ × ℚ)) (cur : ℚ × ℚ)
    (hc : List.Chain' (fun a b : ℚ × ℚ => a.2 = b.1) (cur :: rest)) :
    sumDur (mergeGo d cur rest) = sumDur (cur :: rest) := by
  induction rest generalizing cur with
  | nil => simp [mergeGo]
  | cons sc tl ih =>
      rw [List.chain'_cons] at hc
      obtain ⟨hcs, hrest⟩ := hc
      by_cases h : sc.2 - sc.1 < d
      · have hchain : List.Chain' (fun a b : ℚ × ℚ => a.2 = b.1) ((cur.1, sc.2) :: tl) := by
          rw [List.chain'_cons'] at hrest ⊢
          exact ⟨fun y hy => hrest.1 y hy, hrest.2⟩
        have h1 := ih (cur.1, sc.2) hchain
        rw [mergeGo, if_pos h, h1]
        simp only [sumDur, List.map_cons, List.sum_cons]
        rw [← hcs]
        ring
      · have h1 := ih sc hrest
        rw [mergeGo, if_neg h]
        simp only [sumDur, List.map_cons, List.sum_cons] at h1 ⊢
        rw [h1]

lemma mergeGo_all_ge (d : ℚ) (rest : List (ℚ × ℚ)) (cur : ℚ × ℚ)
    (hc : List.Chain' (fun a b : ℚ × ℚ => a.2 = b.1) (cur :: rest))
    (hnn : ∀ sc ∈ rest, sc.1 ≤ sc.2) (hcur : d ≤ cur.2 - cur.1) :
    ∀ sc ∈ mergeGo d cur rest, d ≤ sc.2 - sc.1 := by
  induction rest generalizing cur with
  | nil => simpa [mergeGo] using hcur
  | cons sc tl ih =>
      rw [List.chain'_cons] at hc
      obtain ⟨hcs, hrest⟩ := hc
      by_cases h : sc.2 - sc.1 < d
      · have hchain : List.Chain' (fun a b : ℚ × ℚ => a.2 = b.1) ((cur.1, sc.2) :: tl) := by
          rw [List.chain'_cons'] at hrest ⊢
          exact ⟨fun y hy => hrest.1 y hy, hrest.2⟩
        have hnn' : ∀ x ∈ tl, x.1 ≤ x.2 := fun x hx => hnn x (List.mem_cons_of_mem _ hx)
        have hsc : sc.1 ≤ sc.2 := hnn sc (List.mem_cons_self _ _)
        have hcur' : d ≤ sc.2 - cur.1 := by
          have : cur.2 = sc.1 := hcs
          have h0 : (0 : ℚ) ≤ sc.2 - sc.1 := by linarith
          calc d ≤ cur.2 - cur.1 := hcur
            _ = sc.1 - cur.1 := by rw [this]
            _ ≤ sc.2 - cur.1 := by linarith
        rw [mergeGo, if_pos h]
        exact ih (cur.1, sc.2) hchain hnn' hcur'
      · push_neg at h
        rw [mergeGo, if_neg (not_lt.mpr h)]
        intro x hx
        rcases List.mem_cons.mp hx with hx | hx
        · subst hx; exact hcur
        · exact ih sc hrest (fun y hy => hnn y (List.mem_cons_of_mem _ hy)) h x hx

lemma mergeGo_tail_ge (d : ℚ) (rest : List (ℚ × ℚ)) (cur : ℚ × ℚ)
    (hc : List.Chain' (fun a b : ℚ × ℚ => a.2 = b.1) (cur :: rest))
    (hnn : ∀ sc ∈ rest, sc.1 ≤ sc.2) :
    ∀ sc ∈ (mergeGo d cur rest).tail, d ≤ sc.2 - sc.1 := by
  induction rest generalizing cur with
  | nil => simp [mergeGo]
  | cons sc tl ih =>
      rw [List.chain'_cons] at hc
      obtain ⟨hcs, hrest⟩ := hc
      by_cases h : sc.2 - sc.1 < d
      · have hchain : List.Chain' (fun a b : ℚ × ℚ => a.2 = b.1) ((cur.1, sc.2) :: tl) := by
          rw [List.chain'_cons'] at hrest ⊢
          exact ⟨fun y hy => hrest.1 y hy, hrest.2⟩
        have hnn' : ∀ x ∈ tl, x.1 ≤ x.2 := fun x hx => hnn x (List.mem_cons_of_mem _ hx)
        rw [mergeGo, if_pos h]
        exact ih (cur.1, sc.2) hchain hnn'
      · push_neg at h
        rw [mergeGo, if_neg (not_lt.mpr h)]
        intro x hx
        rw [List.tail_cons] at hx
        exact mergeGo_all_ge d tl sc hrest
          (fun y hy => hnn y (List.mem_cons_of_mem _ hy)) h x hx

lemma mergeGo_of_all_ge (d : ℚ) (rest : List (ℚ × ℚ)) (cur : ℚ × ℚ)
    (hge : ∀ sc ∈ rest, d ≤ sc.2 - sc.1) :
    mergeGo d cur rest = cur :: rest := by
  induction rest generalizing cur with
  | nil => simp [mergeGo]
  | cons sc tl ih =>
      have hsc : d ≤ sc.2 - sc.1 := hge sc (List.mem_cons_self _ _)
      rw [mergeGo, if_neg (not_lt.mpr hsc)]
      rw [ih sc (fun y hy => hge y (List.mem_cons_of_mem _ hy))]

lemma zip_tail_chain : ∀ bs : List ℕ,
    List.Chain' (fun p q : ℕ × ℕ => p.2 = q.1) (bs.zip bs.tail) := by
  intro bs
  induction bs with
  | nil => simp
  | cons x t ih =>
      cases t with
      | nil => simp
      | cons y t' =>
          simp only [List.tail_cons, List.zip_cons_cons] at ih ⊢
          cases t' with
          | nil => simp
          | cons z t'' =>
              rw [List.zip_cons_cons, List.chain'_cons]
              rw [List.zip_cons_cons] at ih
              exact ⟨rfl, ih⟩

lemma zip_tail_getLast : ∀ (bs : List ℕ) (a : ℕ),
    (((a :: bs).zip bs).getLast?).map Prod.snd = bs.getLast? := by
  intro bs
  induction bs with
  | nil => simp
  | cons c t ih =>
      intro a
      cases t with
      | nil => simp
      | cons d t' =>
          rw [List.zip_cons_cons, List.zip_cons_cons, List.getLast?_cons_cons]
          have := ih c
          rw [List.zip_cons_cons] at this
          rw [this, List.getLast?_cons_cons]

lemma skipAdvance_eq {Frame : Type} :
    ∀ (remaining : List Frame) (frame_num k : ℕ),
      skipAdvance remaining frame_num k =
        (remaining.drop k, frame_num + min k remaining.length) := by
  intro remaining
  induction remaining with
  | nil =>
      intro fn k
      cases k <;> simp [skipAdvance]
  | cons f rest ih =>
      intro fn k
      cases k with
      | zero => simp [skipAdvance]
      | succ k' =>
          rw [skipAdvance, ih (fn + 1) k']
          simp only [List.drop_succ_cons, List.length_cons]
          rw [Prod.mk.injEq]
          exact ⟨rfl, by omega⟩

lemma mergeStep_of_getLast (d : ℚ) (m : List (ℚ × ℚ)) (sc p : ℚ × ℚ)
    (hp : m.getLast? = some p) :
    mergeStep d m sc =
      if sc.2 - sc.1 < d then m.dropLast ++ [(p.1, sc.2)] else m ++ [sc] := by
  simp only [mergeStep, hp]

/-- Claim C2: the Scene Merger seeds with the first scene verbatim, and for
each subsequent scene tests the incoming scene's own duration: an incoming
scene `(a, b)` with `b - a < minDuration` replaces the last merged scene
`(prevStart, prevEnd)` by `(prevStart, b)`, otherwise it is appended
unchanged; `[(0,2),(2,3),(3,10)]` with `minDuration = 2` yields
`[(0,3),(3,10)]`; the first scene is never merged backward (the first
output scene keeps the first input scene's start); empty input yields
empty output. -/
theorem merge_policy :
    (∀ d : ℚ, merge_short_scenes [] d = []) ∧
    (∀ (s : ℚ × ℚ) (d : ℚ), merge_short_scenes [s] d = [s]) ∧
    (∀ (s : ℚ × ℚ) (rest : List (ℚ × ℚ)) (a b d : ℚ),
      merge_short_scenes ((s :: rest) ++ [(a, b)]) d =
        if b - a < d then
          (merge_short_scenes (s :: rest) d).dropLast ++
            (((merge_short_scenes (s :: rest) d).getLast?).map
              (fun p => (p.1, b))).toList
        else merge_short_scenes (s :: rest) d ++ [(a, b)]) ∧
    (∀ (s : ℚ × ℚ) (rest : List (ℚ × ℚ)) (d : ℚ),
      (merge_short_scenes (s :: rest) d).head?.map Prod.fst = some s.1) ∧
    merge_short_scenes [((0 : ℚ), 2), (2, 3), (3, 10)] 2 =
      [((0 : ℚ), 3), (3, 10)] := by
  refine ⟨fun d => rfl, fun s d => rfl, ?_, ?_, ?_⟩
  · intro s rest a b d
    have hfold : merge_short_scenes ((s :: rest) ++ [(a, b)]) d =
        mergeStep d (merge_short_scenes (s :: rest) d) (a, b) := by
      simp [merge_short_scenes, List.foldl_append]
    have hne : merge_short_scenes (s :: rest) d ≠ [] := by
      rw [merge_cons]; exact mergeGo_ne_nil d s rest
    obtain ⟨p, hp⟩ : ∃ p, (merge_short_scenes (s :: rest) d).getLast? = some p := by
      cases hm : (merge_short_scenes (s :: rest) d).getLast? with
      | none => exact absurd (List.getLast?_eq_none_iff.mp hm) hne
      | some p => exact ⟨p, rfl⟩
    rw [hfold, mergeStep_of_getLast d _ (a, b) p hp, hp]
    rfl
  · intro s rest d
    rw [merge_cons]
    exact mergeGo_head_fst d s rest
  · norm_num [merge_short_scenes, mergeStep]

/-- Claim C3, counterexample: for the non-contiguous scene list
`[(0,2),(5,6)]` with `minDuration = 2`, the merge yields `[(0,6)]` and the
total duration changes from `3` to `6`. -/
theorem merge_sum_counterexample :
    sumDur (merge_short_scenes [((0 : ℚ), 2), (5, 6)] 2) ≠
      sumDur [((0 : ℚ), 2), (5, 6)] := by
  norm_num [merge_short_scenes, mergeStep, sumDur]

/-- Claim C3, amended: for every contiguous scene list (each scene's end
equals the next scene's start — as produced by the Boundary Builder) and
every `minDuration`, the merge preserves the sum of scene durations. -/
theorem merge_sum_preserved (scenes : List (ℚ × ℚ)) (d : ℚ)
    (hc : List.Chain' (fun a b : ℚ × ℚ => a.2 = b.1) scenes) :
    sumDur (merge_short_scenes scenes d) = sumDur scenes := by
  cases scenes with
  | nil => rfl
  | cons s rest =>
      rw [merge_cons]
      exact mergeGo_sumDur d rest s hc

/-- Witness for `merge_sum_preserved` at the contiguous list
`[(0,2),(2,3),(3,10)]` with `minDuration = 2`. -/
theorem merge_sum_preserved_witness :
    List.Chain' (fun a b : ℚ × ℚ => a.2 = b.1) [((0 : ℚ), 2), (2, 3), (3, 10)] ∧
    sumDur (merge_short_scenes [((0 : ℚ), 2), (2, 3), (3, 10)] 2) =
      sumDur [((0 : ℚ), 2), (2, 3), (3, 10)] :=
  ⟨by norm_num [List.chain'_cons],
    merge_sum_preserved [((0 : ℚ), 2), (2, 3), (3, 10)] 2
      (by norm_num [List.chain'_cons])⟩

/-- Claim C4: the skip decision is `min_skip` exactly when the motion value
strictly exceeds the threshold and `max_skip` otherwise (equality included);
with threshold `5`, motion `6` yields `min_skip` and motion `3` yields
`max_skip`. -/
theorem skip_decision_policy (motion_val motion_threshold : ℚ)
    (min_skip max_skip : ℕ) :
    (motion_threshold < motion_val →
      skipDecision motion_val motion_threshold min_skip max_skip = min_skip) ∧
    (motion_val ≤ motion_threshold →
      skipDecision motion_val motion_threshold min_skip max_skip = max_skip) ∧
    skipDecision motion_threshold motion_threshold min_skip max_skip = max_skip ∧
    skipDecision 6 5 min_skip max_skip = min_skip ∧
    skipDecision 3 5 min_skip max_skip = max_skip := by
  refine ⟨fun h => ?_, fun h => ?_, ?_, ?_, ?_⟩
  · simp [skipDecision, h]
  · simp [skipDecision, not_lt.mpr h]
  · simp [skipDecision]
  · norm_num [skipDecision]
  · norm_num [skipDecision]

/-- Witness for `skip_decision_policy` at motion `6`, threshold `5`. -/
theorem skip_decision_policy_witness :
    (5 : ℚ) < 6 ∧ skipDecision 6 5 0 5 = 0 :=
  ⟨by norm_num, (skip_decision_policy 6 5 0 5).1 (by norm_num)⟩

/-- Claim C5: the deduplicated cut collection handed to the Boundary
Builder is strictly ascending, contains exactly the indices that were ever
reported (incrementally or by the flush), and contains each of them exactly
once. -/
theorem cut_dedup_unique_sorted (l : List ℕ) :
    List.Sorted (· < ·) (dedupSort l) ∧
    (∀ x : ℕ, x ∈ dedupSort l ↔ x ∈ l) ∧
    (∀ x : ℕ, x ∈ l → (dedupSort l).count x = 1) := by
  refine ⟨?_, fun x => ?_, fun x hx => ?_⟩
  · simp only [dedupSort]
    exact Finset.sort_sorted_lt _
  · simp only [dedupSort, Finset.mem_sort, List.mem_toFinset]
  · refine List.count_eq_one_of_mem ?_ ?_
    · simp only [dedupSort]
      exact Finset.sort_nodup _ _
    · simp only [dedupSort, Finset.mem_sort, List.mem_toFinset]
      exact hx

/-- Witness for `cut_dedup_unique_sorted`: the index `5`, reported twice in
`[5, 3, 5]`, appears exactly once after deduplication. -/
theorem cut_dedup_unique_sorted_witness :
    (5 ∈ [5, 3, 5] ∧ (dedupSort [5, 3, 5]).count 5 = 1) :=
  ⟨by simp, (cut_dedup_unique_sorted [5, 3, 5]).2.2 5 (by simp)⟩

/-- Claim C9: for a non-empty input, the merged list is non-empty, its
first scene starts where the first input scene starts, and its last scene
ends where the last input scene ends. -/
theorem merge_endpoints (s : ℚ × ℚ) (rest : List (ℚ × ℚ)) (d : ℚ) :
    merge_short_scenes (s :: rest) d ≠ [] ∧
    (merge_short_scenes (s :: rest) d).head?.map Prod.fst = some s.1 ∧
    (merge_short_scenes (s :: rest) d).getLast?.map Prod.snd =
      ((s :: rest).getLast?).map Prod.snd := by
  rw [merge_cons]
  exact ⟨mergeGo_ne_nil d s rest, mergeGo_head_fst d s rest,
    mergeGo_getLast_snd d s rest⟩

/-- Claim C10: on a contiguous scene list with non-negative durations,
the merge pass is idempotent: merging its own output changes nothing. -/
theorem merge_idempotent (scenes : List (ℚ × ℚ)) (d : ℚ)
    (hc : List.Chain' (fun a b : ℚ × ℚ => a.2 = b.1) scenes)
    (hnn : ∀ sc ∈ scenes, sc.1 ≤ sc.2) :
    merge_short_scenes (merge_short_scenes scenes d) d =
      merge_short_scenes scenes d := by
  cases scenes with
  | nil => rfl
  | cons s rest =>
      rw [merge_cons]
      obtain ⟨h0, t, hm⟩ : ∃ h0 t, mergeGo d s rest = h0 :: t := by
        cases hm : mergeGo d s rest with
        | nil => exact absurd hm (mergeGo_ne_nil d s rest)
        | cons h0 t => exact ⟨h0, t, rfl⟩
      have htail : ∀ sc ∈ t, d ≤ sc.2 - sc.1 := by
        have h1 := mergeGo_tail_ge d rest s hc
          (fun x hx => hnn x (List.mem_cons_of_mem _ hx))
        rw [hm] at h1
        simpa using h1
      rw [hm, merge_cons, mergeGo_of_all_ge d t h0 htail]

/-- Witness for `merge_idempotent` at the contiguous list
`[(0,2),(2,3),(3,10)]` with `minDuration = 2`. -/
theorem merge_idempotent_witness :
    (List.Chain' (fun a b : ℚ × ℚ => a.2 = b.1) [((0 : ℚ), 2), (2, 3), (3, 10)] ∧
      ∀ sc ∈ [((0 : ℚ), 2), (2, 3), (3, 10)], sc.1 ≤ sc.2) ∧
    merge_short_scenes
        (merge_short_scenes [((0 : ℚ), 2), (2, 3), (3, 10)] 2) 2 =
      merge_short_scenes [((0 : ℚ), 2), (2, 3), (3, 10)] 2 :=
  ⟨⟨by norm_num [List.chain'_cons], by norm_num⟩,
    merge_idempotent [((0 : ℚ), 2), (2, 3), (3, 10)] 2
      (by norm_num [List.chain'_cons]) (by norm_num)⟩

/-- Claim C1: for every cut-index list, total frame count and `fps > 0`,
the Boundary Builder output is exactly the adjacent pairs of
`[0] ++ sorted(unique(cuts)) ++ [totalFrameCount]` divided by `fps`: it has
one scene per adjacent boundary pair, consecutive scenes share their
end/start, the first scene starts at `0` and the last ends at
`totalFrameCount / fps`. -/
theorem boundary_builder_correct (cut_frame_nums : List ℕ) (total_frames : ℕ)
    (fps : ℚ) (hfps : 0 < fps) :
    buildScenes cut_frame_nums total_frames fps =
      (((0 :: dedupSort cut_frame_nums ++ [total_frames]).zip
          (dedupSort cut_frame_nums ++ [total_frames])).map
        (fun p => ((p.1 : ℚ) / fps, (p.2 : ℚ) / fps))) ∧
    (buildScenes cut_frame_nums total_frames fps).length + 1 =
      (0 :: dedupSort cut_frame_nums ++ [total_frames]).length ∧
    List.Chain' (fun a b : ℚ × ℚ => a.2 = b.1)
      (buildScenes cut_frame_nums total_frames fps) ∧
    (buildScenes cut_frame_nums total_frames fps).head?.map Prod.fst =
      some 0 ∧
    (buildScenes cut_frame_nums total_frames fps).getLast?.map Prod.snd =
      some ((total_frames : ℚ) / fps) := by
  refine ⟨rfl, ?_, ?_, ?_, ?_⟩
  · simp [buildScenes, List.length_zip]
  · have hch := zip_tail_chain (0 :: dedupSort cut_frame_nums ++ [total_frames])
    have : List.Chain' (fun a b : ℚ × ℚ => a.2 = b.1)
        ((((0 :: dedupSort cut_frame_nums ++ [total_frames]).zip
            (0 :: dedupSort cut_frame_nums ++ [total_frames]).tail)).map
          (fun p => ((p.1 : ℚ) / fps, (p.2 : ℚ) / fps))) := by
      rw [List.chain'_map]
      exact hch.imp (fun p q h => by simp only; rw [h])
    simpa [buildScenes] using this
  · cases hD : dedupSort cut_frame_nums with
    | nil => simp [buildScenes, hD]
    | cons c cs => simp [buildScenes, hD]
  · have hz := zip_tail_getLast (dedupSort cut_frame_nums ++ [total_frames]) 0
    have hL : (dedupSort cut_frame_nums ++ [total_frames]).getLast? =
        some total_frames := List.getLast?_concat _
    rw [hL] at hz
    obtain ⟨q, hq, hq2⟩ := Option.map_eq_some'.mp hz
    have hmap : (buildScenes cut_frame_nums total_frames fps).getLast? =
        some (((q.1 : ℚ) / fps, (q.2 : ℚ) / fps)) := by
      simp only [buildScenes, List.cons_append, List.tail_cons,
        List.getLast?_map, hq, Option.map_some']
    rw [hmap, Option.map_some', hq2]

/-- Witness for `boundary_builder_correct` at the spec's end-to-end point:
cuts `{90, 210}`, `300` frames, `30` fps. -/
theorem boundary_builder_correct_witness :
    (0 : ℚ) < 30 ∧
    ((buildScenes [90, 210] 300 30).head?.map Prod.fst = some 0 ∧
      (buildScenes [90, 210] 300 30).getLast?.map Prod.snd =
        some ((300 : ℕ) / (30 : ℚ))) :=
  ⟨by norm_num,
    ⟨(boundary_builder_correct [90, 210] 300 30 (by norm_num)).2.2.2.1,
      (boundary_builder_correct [90, 210] 300 30 (by norm_num)).2.2.2.2⟩⟩

lemma detectLoop_cons {Frame Gray σ : Type} (ops : GrayOps Frame Gray)
    (det : Detector Frame σ) (mt : ℚ) (a b : ℕ) (st : σ) (prev_gray : Gray)
    (fn : ℕ) (cuts : List ℕ) (frame : Frame) (rest : List Frame) :
    detectLoop ops det mt a b st prev_gray fn cuts (frame :: rest) =
      (let gray := ops.cvtColor frame
       let skip := skipDecision (ops.absdiffMean prev_gray gray) mt a b
       let pr := det.process_frame st fn frame
       let adv := skipAdvance rest fn skip
       let r := detectLoop ops det mt a b pr.1 gray (adv.2 + 1)
         (cuts ++ pr.2) adv.1
       ⟨r.state, r.cut_frame_nums, r.frame_num, fn :: r.fed_indices⟩) := by
  rw [detectLoop]

lemma detectLoop_fed_cons {Frame Gray σ : Type} (ops : GrayOps Frame Gray)
    (det : Detector Frame σ) (mt : ℚ) (a b : ℕ) (st : σ) (prev_gray : Gray)
    (fn : ℕ) (cuts : List ℕ) (frame : Frame) (rest : List Frame) :
    (detectLoop ops det mt a b st prev_gray fn cuts
        (frame :: rest)).fed_indices =
      fn :: (detectLoop ops det mt a b
          (det.process_frame st fn frame).1 (ops.cvtColor frame)
          (fn + min (skipDecision (ops.absdiffMean prev_gray (ops.cvtColor frame))
              mt a b) rest.length + 1)
          (cuts ++ (det.process_frame st fn frame).2)
          (rest.drop (skipDecision (ops.absdiffMean prev_gray (ops.cvtColor frame))
              mt a b))).fed_indices := by
  rw [detectLoop_cons]
  simp [skipAdvance_eq]

/-- Claim C6: `detect_scenes_dynamic` fails exactly when the source cannot
be opened, and a source that opens but yields zero frames returns the empty
scene list without error. -/
theorem detect_error_iff_unopenable (Frame Gray σ : Type)
    (ops : GrayOps Frame Gray) (det : Detector Frame σ)
    (src : VideoSource Frame) (mt : ℚ) (a b : ℕ) :
    ((∃ e, detect_scenes_dynamic ops det src mt a b = Except.error e) ↔
      src.isOpened = false) ∧
    (src.isOpened = true → src.frames = [] →
      detect_scenes_dynamic ops det src mt a b = Except.ok []) := by
  constructor
  · constructor
    · rintro ⟨e, he⟩
      cases hop : src.isOpened with
      | false => rfl
      | true =>
          exfalso
          rw [detect_scenes_dynamic] at he
          cases hfr : src.frames with
          | nil => simp [detectRun, hop, hfr] at he
          | cons f0 rest => simp [detectRun, hop, hfr] at he
    · intro hop
      exact ⟨"Cannot open video: " ++ src.path, by
        simp [detect_scenes_dynamic, detectRun, hop]⟩
  · intro hop hfr
    simp [detect_scenes_dynamic, detectRun, hop, hfr]

/-- Witness for `detect_error_iff_unopenable`: an opened zero-frame source
returns the empty scene list. -/
theorem detect_error_iff_unopenable_witness :
    (emptySrc.isOpened = true ∧ emptySrc.frames = []) ∧
    detect_scenes_dynamic unitOps nilDetector emptySrc 5 0 5 = Except.ok [] :=
  ⟨⟨rfl, rfl⟩,
    (detect_error_iff_unopenable Unit Unit Unit unitOps nilDetector emptySrc
        5 0 5).2 rfl rfl⟩

/-- Claim C7: the skip loop advances past `min skip remaining` frames,
incrementing the index once per successful grab and stopping early without
error when the source runs out; the first analyzed frame (the second frame
read overall) is fed to the detector at index `1`; and the index fed for
the next analyzed frame is the current index plus the performed skips plus
one. -/
theorem frame_index_protocol :
    (∀ (Frame : Type) (remaining : List Frame) (frame_num skip : ℕ),
      skipAdvance remaining frame_num skip =
        (remaining.drop skip, frame_num + min skip remaining.length)) ∧
    (∀ (Frame Gray σ : Type) (ops : GrayOps Frame Gray)
      (det : Detector Frame σ) (src : VideoSource Frame) (mt : ℚ) (a b : ℕ)
      (f0 f1 : Frame) (rest : List Frame),
      src.isOpened = true → src.frames = f0 :: f1 :: rest →
      (detectRun ops det src mt a b).fed_indices.head? = some 1) ∧
    (∀ (Frame Gray σ : Type) (ops : GrayOps Frame Gray)
      (det : Detector Frame σ) (mt : ℚ) (a b : ℕ) (st : σ) (prev_gray : Gray)
      (fn : ℕ) (cuts : List ℕ) (frame : Frame) (rest : List Frame),
      (detectLoop ops det mt a b st prev_gray fn cuts
          (frame :: rest)).fed_indices =
        fn :: (detectLoop ops det mt a b
            (det.process_frame st fn frame).1 (ops.cvtColor frame)
            (fn + min (skipDecision
                (ops.absdiffMean prev_gray (ops.cvtColor frame)) mt a b)
              rest.length + 1)
            (cuts ++ (det.process_frame st fn frame).2)
            (rest.drop (skipDecision
                (ops.absdiffMean prev_gray (ops.cvtColor frame)) mt a b))).fed_indices) := by
  refine ⟨?_, ?_, ?_⟩
  · intro Frame remaining frame_num skip
    exact skipAdvance_eq remaining frame_num skip
  · intro Frame Gray σ ops det src mt a b f0 f1 rest hop hfr
    have h1 : (detectRun ops det src mt a b).fed_indices =
        (detectLoop ops det mt a b det.init (ops.cvtColor f0) 1 []
          (f1 :: rest)).fed_indices := by
      simp [detectRun, hop, hfr]
    rw [h1, detectLoop_fed_cons]
    rfl
  · intro Frame Gray σ ops det mt a b st prev_gray fn cuts frame rest
    exact detectLoop_fed_cons ops det mt a b st prev_gray fn cuts frame rest

/-- Witness for `frame_index_protocol`: on an opened three-frame source the
first index fed to the detector is `1`. -/
theorem frame_index_protocol_witness :
    (threeFrameSrc.isOpened = true ∧
      threeFrameSrc.frames = () :: () :: [()]) ∧
    (detectRun unitOps nilDetector threeFrameSrc 5 0 5).fed_indices.head? =
      some 1 :=
  ⟨⟨rfl, rfl⟩,
    frame_index_protocol.2.1 Unit Unit Unit unitOps nilDetector threeFrameSrc
      5 0 5 () () [()] rfl rfl⟩

/-- Claim C8, counterexample: on an unopenable source the function raises
without releasing the handle, so there is an exit path with zero releases
— the claimed release-exactly-once-on-every-exit-path discipline fails
there. -/
theorem release_missing_on_unopenable :
    (detectRun unitOps nilDetector closedSrc 5 0 5).releases = 0 ∧
    ¬((detectRun unitOps nilDetector closedSrc 5 0 5).releases = 1) ∧
    ∃ e, (detectRun unitOps nilDetector closedSrc 5 0 5).result =
      Except.error e := by
  refine ⟨rfl, ?_, ⟨"Cannot open video: v.mp4", rfl⟩⟩
  simp [detectRun, closedSrc]

/-- Claim C8, amended: the handle is released exactly once on every exit
path on which the source was successfully opened (zero-frame early return
and normal completion), and zero times on the unopenable-source error
path. -/
theorem release_exactly_once_when_opened (Frame Gray σ : Type)
    (ops : GrayOps Frame Gray) (det : Detector Frame σ)
    (src : VideoSource Frame) (mt : ℚ) (a b : ℕ) :
    (detectRun ops det src mt a b).releases =
      if src.isOpened then 1 else 0 := by
  cases hop : src.isOpened with
  | false => simp [detectRun, hop]
  | true => cases hfr : src.frames <;> simp [detectRun, hop, hfr]
